import Mathlib

/-!
Verification of the `thread_pool` crate (`src/lib.rs`).

The embedding is shallow: jobs are identified by natural numbers (a `Job` is an
opaque callable, so only its identity and the fact that it was executed are
observable), channel messages mirror `WorkerMessage`, and the pool's worker
list mirrors `Vec<Worker>`.  Operations that touch the channel or join threads
return, besides the updated pool, the list of externally observable events
(messages sent on the channel, threads joined) they perform, in order.

The runtime behaviour of the worker loops (lines 20-34 of `lib.rs`) is
modelled twice: `workerLoop` gives the sequential behaviour of a single
worker on the stream of messages it dequeues, and `sysStep`/`sysRun` give an
interleaving semantics where a scheduler picks which worker acquires the
receive lock next; the shared `mpsc` channel is a FIFO list.
-/

/-- Mirror of `enum WorkerMessage { NewJob(Job), Shutdown }` with jobs
identified by naturals. -/
inductive WorkerMessage where
  | NewJob (j : Nat)
  | Shutdown
deriving DecidableEq, Repr

/-- Mirror of `struct Worker { id: usize, thread: Option<JoinHandle<()>> }`.
The join handle carries no observable data, so it is modelled as
`Option Unit`. -/
structure Worker where
  id : Nat
  thread : Option Unit
deriving DecidableEq, Repr

/-- Mirror of `Worker::new`: spawns a thread and stores `Some(handle)`. -/
def Worker.new (id : Nat) : Worker :=
  { id := id, thread := some () }

/-- Externally observable effects of a pool operation: a message sent on the
dispatch channel, or a join of the thread of the worker with the given id. -/
inductive PoolEvent where
  | send (m : WorkerMessage)
  | join (id : Nat)
deriving DecidableEq, Repr

/-- Mirror of `struct ThreadPool`: only the worker list carries state in the
embedding (the sender/receiver handles have no observable state of their own;
the channel contents live in `SysState` below). -/
structure ThreadPool where
  workers : List Worker
deriving DecidableEq, Repr

/-- Mirror of `ThreadPool::new` (lines 56-74).  The source asserts
`thread_count != 0` (a panic); the embedding returns `none` in that case.
Otherwise the loop `for i in 0..thread_count` pushes `Worker::new(i + 1)`. -/
def ThreadPool.new (thread_count : Nat) : Option ThreadPool :=
  if thread_count = 0 then none
  else some { workers := (List.range thread_count).map (fun i => Worker.new (i + 1)) }

/-- Mirror of the shrink loop `for _ in 0..k { self.workers.pop() }`:
pop the last element `k` times. -/
def popTimes (l : List Worker) : Nat → List Worker
  | 0 => l
  | n + 1 => popTimes l.dropLast n

/-- Mirror of `ThreadPool::set_thread_count` (lines 76-90).  Growing pushes
`Worker::new(i + 1 + current_thread_count)` for `i in 0..(new - current)`;
shrinking pops; neither branch sends a message or joins a thread, hence the
event trace is empty. -/
def ThreadPool.set_thread_count (p : ThreadPool) (new_thread_count : Nat) :
    ThreadPool × List PoolEvent :=
  let current_thread_count := p.workers.length
  if new_thread_count > current_thread_count then
    ({ workers := p.workers ++
        (List.range (new_thread_count - current_thread_count)).map
          (fun i => Worker.new (i + 1 + current_thread_count)) }, [])
  else if new_thread_count < current_thread_count then
    ({ workers := popTimes p.workers (current_thread_count - new_thread_count) }, [])
  else (p, [])

/-- Mirror of `ThreadPool::execute` (lines 98-104): wrap the job and send it. -/
def ThreadPool.execute (p : ThreadPool) (j : Nat) : ThreadPool × List PoolEvent :=
  (p, [PoolEvent.send (WorkerMessage.NewJob j)])

/-- Mirror of the second loop of `Drop for ThreadPool` (lines 115-119):
`if let Some(thread) = worker.thread.take() { thread.join().unwrap(); }`.
Returns the worker list after the handles are taken together with the join
events, in list order. -/
def joinLoop : List Worker → List Worker × List PoolEvent
  | [] => ([], [])
  | w :: ws =>
    match w.thread with
    | some _ =>
      let r := joinLoop ws
      ({ w with thread := none } :: r.1, PoolEvent.join w.id :: r.2)
    | none =>
      let r := joinLoop ws
      (w :: r.1, r.2)

/-- Mirror of `Drop for ThreadPool` (lines 107-121): one `Shutdown` sent per
tracked worker (`for _ in &self.workers`), then the join loop. -/
def ThreadPool.dropPool (p : ThreadPool) : ThreadPool × List PoolEvent :=
  let sends := p.workers.map (fun _ => PoolEvent.send WorkerMessage.Shutdown)
  let r := joinLoop p.workers
  ({ workers := r.1 }, sends ++ r.2)

/-- Sequential behaviour of the worker loop (lines 20-34) on the stream of
messages this worker dequeues: returns the jobs it executes, in order, and
whether the loop has exited (`break` on `Shutdown`).  An empty remaining
stream means the worker is still blocked in `recv`, hence not terminated. -/
def workerLoop : List WorkerMessage → List Nat × Bool
  | [] => ([], false)
  | WorkerMessage.NewJob j :: rest =>
    let r := workerLoop rest
    (j :: r.1, r.2)
  | WorkerMessage.Shutdown :: _ => ([], true)

/-- Runtime state of one worker thread in the interleaving semantics: the
jobs it has executed so far (in order) and whether its loop has exited. -/
structure WorkerRT where
  id : Nat
  executed : List Nat
  terminated : Bool
deriving DecidableEq, Repr

/-- One iteration of the worker loop body (lines 22-33) on a dequeued
message: `NewJob(job)` runs `job()`, `Shutdown` breaks out of the loop. -/
def WorkerRT.recvMsg (w : WorkerRT) (m : WorkerMessage) : WorkerRT :=
  match m with
  | WorkerMessage.NewJob j => { w with executed := w.executed ++ [j] }
  | WorkerMessage.Shutdown => { w with terminated := true }

/-- Global runtime state: the FIFO channel contents (`queue`, head = oldest),
the messages already dequeued in dequeue order, and the worker threads. -/
structure SysState where
  queue : List WorkerMessage
  dequeued : List WorkerMessage
  workers : List WorkerRT
deriving DecidableEq, Repr

/-- One scheduler step: worker `i` (if it exists, its loop has not exited,
and a message is available) acquires the receive lock, dequeues the head of
the FIFO channel and processes it; otherwise nothing happens (the worker is
blocked in `recv`, already terminated, or `i` names no worker). -/
def sysStep (s : SysState) (i : Nat) : SysState :=
  match s.queue with
  | [] => s
  | m :: rest =>
    match s.workers[i]? with
    | none => s
    | some w =>
      if w.terminated then s
      else { queue := rest, dequeued := s.dequeued ++ [m],
             workers := s.workers.set i (w.recvMsg m) }

/-- Run a whole schedule (the sequence of lock-acquisition winners). -/
def sysRun (s : SysState) (sched : List Nat) : SysState :=
  sched.foldl sysStep s

/-- The messages sent by `execute`-ing each of `jobs` in order and then
dropping a pool of `K` workers: `N` jobs followed by `K` `Shutdown`s
(the channel is FIFO, so this is also the delivery order). -/
def initMsgs (jobs : List Nat) (K : Nat) : List WorkerMessage :=
  jobs.map WorkerMessage.NewJob ++ List.replicate K WorkerMessage.Shutdown

/-- Initial runtime state: the full message sequence is queued, nothing
dequeued, and `K` fresh workers with ids `1..K` are blocked on `recv`. -/
def initState (jobs : List Nat) (K : Nat) : SysState :=
  { queue := initMsgs jobs K, dequeued := [],
    workers := (List.range K).map (fun i => ⟨i + 1, [], false⟩) }

/-- The job payloads of a message sequence, in order. -/
def jobsOf (msgs : List WorkerMessage) : List Nat :=
  msgs.filterMap (fun m => match m with
    | WorkerMessage.NewJob j => some j
    | WorkerMessage.Shutdown => none)

/-- Whether a message is the shutdown signal. -/
def isShutdown : WorkerMessage → Bool
  | WorkerMessage.NewJob _ => false
  | WorkerMessage.Shutdown => true

/-- All jobs executed so far, over all workers (worker-list order). -/
def allExecuted (ws : List WorkerRT) : List Nat :=
  (ws.map (fun w => w.executed)).flatten

/-- Invariant of the interleaving semantics: the worker count is stable, the
dequeued trace followed by the remaining queue is exactly the sent sequence,
the multiset of executed jobs matches the dequeued job messages, and the
number of exited workers equals the number of dequeued `Shutdown`s. -/
def sysInv (jobs : List Nat) (K : Nat) (s : SysState) : Prop :=
  s.workers.length = K ∧
  s.dequeued ++ s.queue = initMsgs jobs K ∧
  (allExecuted s.workers).Perm (jobsOf s.dequeued) ∧
  s.workers.countP (fun w => w.terminated) = s.dequeued.countP isShutdown

/-! ### Helper lemmas -/

/-- Popping the last element `k` times keeps the first `length - k` elements. -/
theorem popTimes_eq_take (k : Nat) (l : List Worker) :
    popTimes l k = l.take (l.length - k) := by
  induction k generalizing l with
  | zero => simp [popTimes]
  | succ n ih =>
    rw [popTimes, ih, List.dropLast_eq_take, List.take_take, List.length_take]
    congr 1
    omega

/-- Closed form of the handle-taking loop of `Drop`: every handle is taken,
and exactly the workers whose handle was present produce a join event. -/
theorem joinLoop_spec (ws : List Worker) :
    joinLoop ws = (ws.map (fun w => { w with thread := none }),
      ws.filterMap (fun w => w.thread.map (fun _ => PoolEvent.join w.id))) := by
  induction ws with
  | nil => rfl
  | cons w ws ih =>
    cases hw : w.thread with
    | none =>
      have hwid : w = { w with thread := none } := by
        cases w with | mk i t => simp only at hw; rw [hw]
      simp only [joinLoop, hw, ih, List.map_cons, List.filterMap_cons, Option.map_none']
      rw [← hwid]
    | some u =>
      simp [joinLoop, hw, ih, List.filterMap_cons]

/-- The worker list built by construction has ids `1, 2, ..., n` in order. -/
theorem new_ids (n : Nat) (p : ThreadPool) (h : ThreadPool.new n = some p) :
    p.workers.map (fun w => w.id) = List.range' 1 p.workers.length := by
  by_cases hn : n = 0
  · simp [ThreadPool.new, hn] at h
  · simp only [ThreadPool.new, hn, if_false] at h
    cases h
    simp only [List.map_map, List.length_map, List.length_range]
    rw [List.range'_eq_map_range]
    apply List.map_congr_left
    intro i _
    simp [Worker.new, Nat.add_comm]

/-! ### Claim theorems -/

/-- Claim C1: for every `thread_count > 0`, `ThreadPool::new` returns a pool
tracking exactly `thread_count` workers, whose ids are the sequential
integers starting at 1 (the worker at position `k` has id `k + 1`). -/
theorem construction_spec (n : Nat) (h : 0 < n) :
    ∃ p, ThreadPool.new n = some p ∧ p.workers.length = n ∧
      p.workers.map (fun w => w.id) = List.range' 1 n ∧
      ∀ k (hk : k < p.workers.length), (p.workers.get ⟨k, hk⟩).id = k + 1 := by
  have hn : n ≠ 0 := Nat.pos_iff_ne_zero.mp h
  refine ⟨{ workers := (List.range n).map (fun i => Worker.new (i + 1)) }, ?_, ?_, ?_, ?_⟩
  · simp [ThreadPool.new, hn]
  · simp
  · have := new_ids n { workers := (List.range n).map (fun i => Worker.new (i + 1)) }
      (by simp [ThreadPool.new, hn])
    simpa using this
  · intro k hk
    simp only [List.length_map, List.length_range] at hk
    simp [List.get_eq_getElem, Worker.new, hk]

/-- Claim C1 witness at `thread_count = 3`. -/
theorem construction_spec_witness :
    ∃ p, ThreadPool.new 3 = some p ∧ p.workers.length = 3 ∧
      p.workers.map (fun w => w.id) = List.range' 1 3 ∧
      ∀ k (hk : k < p.workers.length), (p.workers.get ⟨k, hk⟩).id = k + 1 :=
  construction_spec 3 (by decide)

/-- Claim C2: construction with `thread_count = 0` fails fatally (the
`assert_ne!` panics, modelled as `none`): no pool value is ever produced. -/
theorem zero_capacity_rejected : ThreadPool.new 0 = none := rfl

/-- Claim C4: growing a pool of `c` workers to `new_count > c` appends
exactly `new_count - c` workers (the first `c` are unchanged, the total
becomes `new_count`), and the appended workers carry ids `c+1 .. new_count`
in order. -/
theorem grow_spec (p : ThreadPool) (m : Nat) (h : p.workers.length < m) :
    (p.set_thread_count m).1.workers.take p.workers.length = p.workers ∧
    (p.set_thread_count m).1.workers.length = m ∧
    ((p.set_thread_count m).1.workers.map (fun w => w.id)).drop p.workers.length
      = List.range' (p.workers.length + 1) (m - p.workers.length) := by
  simp only [ThreadPool.set_thread_count, gt_iff_lt, h, if_true]
  refine ⟨List.take_left _ _, ?_, ?_⟩
  · simp; omega
  · rw [List.map_append, List.drop_append_of_le_length (by simp),
      List.drop_eq_nil_of_le (by simp), List.nil_append, List.map_map,
      List.range'_eq_map_range]
    apply List.map_congr_left
    intro i _
    simp only [Function.comp_apply, Worker.new]
    omega

/-- Claim C4 witness: a pool of 2 workers grown to 4. -/
theorem grow_spec_witness :
    (ThreadPool.mk [Worker.new 1, Worker.new 2]).workers.length < 4 ∧
    ((ThreadPool.mk [Worker.new 1, Worker.new 2]).set_thread_count 4).1.workers.take
        (ThreadPool.mk [Worker.new 1, Worker.new 2]).workers.length
      = (ThreadPool.mk [Worker.new 1, Worker.new 2]).workers ∧
    ((ThreadPool.mk [Worker.new 1, Worker.new 2]).set_thread_count 4).1.workers.length = 4 ∧
    (((ThreadPool.mk [Worker.new 1, Worker.new 2]).set_thread_count 4).1.workers.map
        (fun w => w.id)).drop (ThreadPool.mk [Worker.new 1, Worker.new 2]).workers.length
      = List.range' ((ThreadPool.mk [Worker.new 1, Worker.new 2]).workers.length + 1)
          (4 - (ThreadPool.mk [Worker.new 1, Worker.new 2]).workers.length) :=
  ⟨by decide, grow_spec (ThreadPool.mk [Worker.new 1, Worker.new 2]) 4 (by decide)⟩

/-- Claim C5: shrinking a pool of `c` workers to `new_count < c` pops
`c - new_count` workers from the end (most-recently-added first), keeping the
first `new_count` unchanged, and performs no channel send and no join (empty
event trace: the removed workers are neither sent `Shutdown` nor joined). -/
theorem shrink_spec (p : ThreadPool) (m : Nat) (h : m < p.workers.length) :
    (p.set_thread_count m).1.workers = p.workers.take m ∧
    (p.set_thread_count m).1.workers.length = m ∧
    (p.set_thread_count m).2 = [] := by
  have hng : ¬ (m > p.workers.length) := by omega
  simp only [ThreadPool.set_thread_count, gt_iff_lt, hng, if_false, h, if_true]
  rw [popTimes_eq_take]
  refine ⟨by congr 1; omega, ?_, trivial⟩
  simp only [List.length_take]
  omega

/-- Claim C5 witness: a pool of 3 workers shrunk to 1. -/
theorem shrink_spec_witness :
    1 < (ThreadPool.mk [Worker.new 1, Worker.new 2, Worker.new 3]).workers.length ∧
    ((ThreadPool.mk [Worker.new 1, Worker.new 2, Worker.new 3]).set_thread_count 1).1.workers
      = (ThreadPool.mk [Worker.new 1, Worker.new 2, Worker.new 3]).workers.take 1 ∧
    ((ThreadPool.mk [Worker.new 1, Worker.new 2, Worker.new 3]).set_thread_count 1).1.workers.length
      = 1 ∧
    ((ThreadPool.mk [Worker.new 1, Worker.new 2, Worker.new 3]).set_thread_count 1).2 = [] :=
  ⟨by decide, shrink_spec (ThreadPool.mk [Worker.new 1, Worker.new 2, Worker.new 3]) 1 (by decide)⟩

/-- Claim C6: resizing to the current worker count is a no-op: the pool (its
worker list, count, and every id) is returned unchanged, and no worker is
spawned or removed, no message sent, no thread joined. -/
theorem resize_noop (p : ThreadPool) :
    p.set_thread_count p.workers.length = (p, []) := by
  simp [ThreadPool.set_thread_count]

/-- Claim C3: teardown of a pool tracking `K` workers sends exactly `K`
`Shutdown` messages (one per tracked worker), then joins exactly the workers
whose thread handle is still present — a worker whose handle was already
taken is skipped silently (it simply yields no join event and teardown still
completes, taking every remaining handle). -/
theorem teardown_spec (p : ThreadPool) :
    (p.dropPool).2
      = List.replicate p.workers.length (PoolEvent.send WorkerMessage.Shutdown)
        ++ p.workers.filterMap (fun w => w.thread.map (fun _ => PoolEvent.join w.id)) ∧
    (p.dropPool).1.workers = p.workers.map (fun w => { w with thread := none }) := by
  simp only [ThreadPool.dropPool, joinLoop_spec]
  exact ⟨by rw [List.map_const'], trivial⟩

/-- Claim C7: the worker loop exits (transitions to Terminated) only on a
dequeued `Shutdown`; a dequeued `NewJob` keeps it running — the job is
executed and the loop continues on the remaining stream, so the loop is never
exited by a job message, and it has exited exactly when a `Shutdown` was
dequeued. -/
theorem worker_loop_spec (msgs rest : List WorkerMessage) (j : Nat) :
    workerLoop (WorkerMessage.NewJob j :: rest)
        = (j :: (workerLoop rest).1, (workerLoop rest).2) ∧
    workerLoop (WorkerMessage.Shutdown :: rest) = ([], true) ∧
    ((workerLoop msgs).2 = true ↔ WorkerMessage.Shutdown ∈ msgs) := by
  refine ⟨rfl, rfl, ?_⟩
  induction msgs with
  | nil => simp [workerLoop]
  | cons m t ih =>
    cases m with
    | NewJob k => simp [workerLoop, ih]
    | Shutdown => simp [workerLoop]

/-- Apply a sequence of `set_thread_count` calls. -/
def applyOps (p : ThreadPool) (ops : List Nat) : ThreadPool :=
  ops.foldl (fun q c => (q.set_thread_count c).1) p

/-- The tracked workers carry ids `1, 2, ..., count` in list order. -/
def idsSequential (p : ThreadPool) : Prop :=
  p.workers.map (fun w => w.id) = List.range' 1 p.workers.length

/-- Taking a prefix of `range'` gives a shorter `range'`. -/
theorem range'_take (s n m : Nat) :
    (List.range' s n).take m = List.range' s (min m n) := by
  induction n generalizing s m with
  | zero => simp
  | succ k ih =>
    cases m with
    | zero => simp
    | succ m' =>
      rw [List.range'_succ, List.take_succ_cons, ih,
        show min (m' + 1) (k + 1) = min m' k + 1 from by omega, List.range'_succ]

/-- Resizing preserves sequential ids: grown workers continue the numbering
from the current count, and shrinking keeps a prefix. -/
theorem set_thread_count_preserves_ids (p : ThreadPool) (m : Nat)
    (h : idsSequential p) : idsSequential (p.set_thread_count m).1 := by
  unfold idsSequential at h ⊢
  rcases Nat.lt_trichotomy p.workers.length m with hlt | heq | hgt
  · simp only [ThreadPool.set_thread_count, gt_iff_lt, hlt, if_true]
    rw [List.map_append, h, List.map_map, List.length_append, List.length_map,
      List.length_range]
    have hmap : (List.range (m - p.workers.length)).map
        ((fun w => w.id) ∘ fun i => Worker.new (i + 1 + p.workers.length))
        = List.range' (1 + p.workers.length) (m - p.workers.length) := by
      rw [List.range'_eq_map_range]
      apply List.map_congr_left
      intro i _
      simp only [Function.comp_apply, Worker.new]
      omega
    rw [hmap, List.range'_append_1]
    congr 1
    omega
  · subst heq
    simp [ThreadPool.set_thread_count, h]
  · have hng : ¬ (m > p.workers.length) := by omega
    simp only [ThreadPool.set_thread_count, gt_iff_lt, hng, if_false, hgt, if_true]
    rw [popTimes_eq_take]
    have hm : p.workers.length - (p.workers.length - m) = m := by omega
    rw [hm, List.map_take, h, range'_take, List.length_take]

/-- Sequential ids are preserved by any sequence of resizes. -/
theorem applyOps_preserves_ids (ops : List Nat) (p : ThreadPool)
    (h : idsSequential p) : idsSequential (applyOps p ops) := by
  induction ops generalizing p with
  | nil => exact h
  | cons c t ih => exact ih _ (set_thread_count_preserves_ids p c h)

/-- Claim C10: after construction followed by any sequence of resizes, the
tracked workers' ids are exactly `1, 2, ..., count` in list order (position
`k` has id `k + 1`), and in particular the ids of the live workers are
pairwise distinct. -/
theorem ids_invariant (n : Nat) (ops : List Nat) (p : ThreadPool)
    (h : ThreadPool.new n = some p) :
    idsSequential (applyOps p ops) ∧
    ((applyOps p ops).workers.map (fun w => w.id)).Nodup := by
  have hseq : idsSequential p := new_ids n p h
  have hall := applyOps_preserves_ids ops p hseq
  refine ⟨hall, ?_⟩
  unfold idsSequential at hall
  rw [hall]
  exact List.nodup_range' _ _

/-- Claim C10 witness: a 2-worker pool resized to 5, then 1, then 3. -/
theorem ids_invariant_witness :
    ThreadPool.new 2 = some (ThreadPool.mk [Worker.new 1, Worker.new 2]) ∧
    (idsSequential (applyOps (ThreadPool.mk [Worker.new 1, Worker.new 2]) [5, 1, 3]) ∧
      ((applyOps (ThreadPool.mk [Worker.new 1, Worker.new 2]) [5, 1, 3]).workers.map
        (fun w => w.id)).Nodup) :=
  ⟨by decide,
    ids_invariant 2 [5, 1, 3] (ThreadPool.mk [Worker.new 1, Worker.new 2]) (by decide)⟩

/-! ### Lemmas for the interleaving semantics -/

/-- Unfolding `allExecuted` over a cons. -/
theorem allExecuted_cons (w : WorkerRT) (ws : List WorkerRT) :
    allExecuted (w :: ws) = w.executed ++ allExecuted ws := by
  simp [allExecuted]

/-- Appending one executed job to one worker appends it (up to permutation)
to the aggregate of all executed jobs. -/
theorem allExecuted_set_exec (ws : List WorkerRT) (i : Nat) (w : WorkerRT)
    (hw : ws[i]? = some w) (j : Nat) :
    (allExecuted (ws.set i { w with executed := w.executed ++ [j] })).Perm
      (allExecuted ws ++ [j]) := by
  induction ws generalizing i with
  | nil => simp at hw
  | cons a t ih =>
    cases i with
    | zero =>
      simp only [List.getElem?_cons_zero, Option.some.injEq] at hw
      subst hw
      rw [List.set_cons_zero, allExecuted_cons, allExecuted_cons, List.append_assoc,
        List.append_assoc]
      exact List.perm_append_comm.append_left a.executed
    | succ i' =>
      simp only [List.getElem?_cons_succ] at hw
      rw [List.set_cons_succ, allExecuted_cons, allExecuted_cons, List.append_assoc]
      exact ((ih i' hw).append_left a.executed).trans (by rw [← List.append_assoc])

/-- Marking one worker terminated leaves the aggregate executed jobs
unchanged. -/
theorem allExecuted_set_term (ws : List WorkerRT) (i : Nat) (w : WorkerRT)
    (hw : ws[i]? = some w) :
    allExecuted (ws.set i { w with terminated := true }) = allExecuted ws := by
  induction ws generalizing i with
  | nil => simp at hw
  | cons a t ih =>
    cases i with
    | zero =>
      simp only [List.getElem?_cons_zero, Option.some.injEq] at hw
      subst hw
      rw [List.set_cons_zero, allExecuted_cons, allExecuted_cons]
    | succ i' =>
      simp only [List.getElem?_cons_succ] at hw
      rw [List.set_cons_succ, allExecuted_cons, allExecuted_cons, ih i' hw]

/-- Appending an executed job does not change how many workers have exited. -/
theorem countTerm_set_exec (ws : List WorkerRT) (i : Nat) (w : WorkerRT)
    (hw : ws[i]? = some w) (j : Nat) :
    (ws.set i { w with executed := w.executed ++ [j] }).countP (fun x => x.terminated)
      = ws.countP (fun x => x.terminated) := by
  induction ws generalizing i with
  | nil => simp at hw
  | cons a t ih =>
    cases i with
    | zero =>
      simp only [List.getElem?_cons_zero, Option.some.injEq] at hw
      subst hw
      rw [List.set_cons_zero, List.countP_cons, List.countP_cons]
    | succ i' =>
      simp only [List.getElem?_cons_succ] at hw
      rw [List.set_cons_succ, List.countP_cons, List.countP_cons, ih i' hw]

/-- Marking a running worker terminated raises the exited count by one. -/
theorem countTerm_set_true (ws : List WorkerRT) (i : Nat) (w : WorkerRT)
    (hw : ws[i]? = some w) (hf : w.terminated = false) :
    (ws.set i { w with terminated := true }).countP (fun x => x.terminated)
      = ws.countP (fun x => x.terminated) + 1 := by
  induction ws generalizing i with
  | nil => simp at hw
  | cons a t ih =>
    cases i with
    | zero =>
      simp only [List.getElem?_cons_zero, Option.some.injEq] at hw
      subst hw
      rw [List.set_cons_zero, List.countP_cons, List.countP_cons]
      simp [hf]
    | succ i' =>
      simp only [List.getElem?_cons_succ] at hw
      rw [List.set_cons_succ, List.countP_cons, List.countP_cons, ih i' hw]
      omega

/-- `jobsOf` distributes over append. -/
theorem jobsOf_append (xs ys : List WorkerMessage) :
    jobsOf (xs ++ ys) = jobsOf xs ++ jobsOf ys := by
  rw [jobsOf, jobsOf, jobsOf, List.filterMap_append]

/-- Job messages carry exactly their payloads. -/
theorem jobsOf_map_newJob (jobs : List Nat) :
    jobsOf (jobs.map WorkerMessage.NewJob) = jobs := by
  induction jobs with
  | nil => rfl
  | cons j t ih => simp only [List.map_cons, jobsOf, List.filterMap_cons] at ih ⊢; rw [ih]

/-- Shutdown messages carry no jobs. -/
theorem jobsOf_replicate_shutdown (K : Nat) :
    jobsOf (List.replicate K WorkerMessage.Shutdown) = [] := by
  induction K with
  | zero => rfl
  | succ k ih => rw [List.replicate_succ, jobsOf, List.filterMap_cons] at *; exact ih

/-- A block of `K` shutdown messages counts `K` shutdowns. -/
theorem countShutdown_replicate (K : Nat) :
    (List.replicate K WorkerMessage.Shutdown).countP isShutdown = K := by
  induction K with
  | zero => rfl
  | succ k ih => rw [List.replicate_succ, List.countP_cons]; simp [isShutdown, ih]

/-- Job messages count no shutdowns. -/
theorem countShutdown_map_newJob (jobs : List Nat) :
    (jobs.map WorkerMessage.NewJob).countP isShutdown = 0 := by
  induction jobs with
  | nil => rfl
  | cons j t ih => simp [List.countP_cons, isShutdown, ih]

/-- The payloads of the whole sent sequence are exactly the submitted jobs. -/
theorem jobsOf_initMsgs (jobs : List Nat) (K : Nat) :
    jobsOf (initMsgs jobs K) = jobs := by
  rw [initMsgs, jobsOf_append, jobsOf_map_newJob, jobsOf_replicate_shutdown,
    List.append_nil]

/-- Fresh workers have executed nothing. -/
theorem allExecuted_init (l : List Nat) :
    allExecuted (l.map fun i => (⟨i + 1, [], false⟩ : WorkerRT)) = [] := by
  induction l with
  | nil => rfl
  | cons a t ih => rw [List.map_cons, allExecuted_cons, ih]; rfl

/-- Fresh workers are all running. -/
theorem countTerm_init (l : List Nat) :
    (l.map fun i => (⟨i + 1, [], false⟩ : WorkerRT)).countP (fun w => w.terminated) = 0 := by
  induction l with
  | nil => rfl
  | cons a t ih => rw [List.map_cons, List.countP_cons]; simp [ih]

/-- The initial state satisfies the system invariant. -/
theorem init_inv (jobs : List Nat) (K : Nat) : sysInv jobs K (initState jobs K) := by
  refine ⟨by simp [initState], by simp [initState], ?_, ?_⟩
  · rw [initState]
    simp only
    rw [allExecuted_init]
    exact List.Perm.refl _
  · rw [initState]
    simp only
    rw [countTerm_init]
    rfl

/-- Each scheduler step preserves the system invariant. -/
theorem sysStep_inv (jobs : List Nat) (K : Nat) (s : SysState) (i : Nat)
    (h : sysInv jobs K s) : sysInv jobs K (sysStep s i) := by
  obtain ⟨hlen, hq, hperm, hcount⟩ := h
  cases hque : s.queue with
  | nil =>
    simp only [sysStep, hque]
    exact ⟨hlen, hq, hperm, hcount⟩
  | cons m rest =>
    simp only [sysStep, hque]
    cases hw : s.workers[i]? with
    | none => exact ⟨hlen, hq, hperm, hcount⟩
    | some w =>
      cases htb : w.terminated with
      | true =>
        simp only [htb, if_true]
        exact ⟨hlen, hq, hperm, hcount⟩
      | false =>
        simp only [htb, Bool.false_eq_true, if_false]
        rw [hque] at hq
        cases m with
        | NewJob j =>
          refine ⟨by simp [hlen], ?_, ?_, ?_⟩
          · rw [List.append_assoc, List.singleton_append]
            exact hq
          · simp only [WorkerRT.recvMsg]
            rw [jobsOf_append,
              show jobsOf [WorkerMessage.NewJob j] = [j] from rfl]
            exact (allExecuted_set_exec s.workers i w hw j).trans
              (hperm.append_right [j])
          · simp only [WorkerRT.recvMsg]
            rw [countTerm_set_exec s.workers i w hw j, List.countP_append]
            simp [isShutdown, hcount]
        | Shutdown =>
          refine ⟨by simp [hlen], ?_, ?_, ?_⟩
          · rw [List.append_assoc, List.singleton_append]
            exact hq
          · simp only [WorkerRT.recvMsg]
            rw [allExecuted_set_term s.workers i w hw, jobsOf_append,
              show jobsOf [WorkerMessage.Shutdown] = [] from rfl, List.append_nil]
            exact hperm
          · simp only [WorkerRT.recvMsg]
            rw [countTerm_set_true s.workers i w hw htb, List.countP_append]
            simp [isShutdown, hcount]

/-- Any schedule preserves the system invariant. -/
theorem sysRun_inv (jobs : List Nat) (K : Nat) (sched : List Nat) (s : SysState)
    (h : sysInv jobs K s) : sysInv jobs K (sysRun s sched) := by
  induction sched generalizing s with
  | nil => exact h
  | cons a t ih => exact ih _ (sysStep_inv jobs K s a h)

/-- If all `K ≥ 1` shutdown messages have been dequeued, the queue (a suffix
of the sent sequence, which ends in a shutdown) must be empty. -/
theorem queue_nil_of_shutdown_count (jobs : List Nat) (K : Nat) (hK : 1 ≤ K)
    (d q : List WorkerMessage) (hdq : d ++ q = initMsgs jobs K)
    (hcnt : d.countP isShutdown = K) : q = [] := by
  by_contra hne
  have htot : d.countP isShutdown + q.countP isShutdown = K := by
    rw [← List.countP_append, hdq, initMsgs, List.countP_append,
      countShutdown_map_newJob, countShutdown_replicate]
    omega
  have hq0 : q.countP isShutdown = 0 := by omega
  obtain ⟨q', a, hqa⟩ := (List.eq_nil_or_concat q).resolve_left hne
  rw [List.concat_eq_append] at hqa
  subst hqa
  obtain ⟨k, rfl⟩ : ∃ k, K = k + 1 := ⟨K - 1, by omega⟩
  have hconcat : (d ++ q') ++ [a]
      = (jobs.map WorkerMessage.NewJob ++ List.replicate k WorkerMessage.Shutdown)
        ++ [WorkerMessage.Shutdown] := by
    rw [List.append_assoc, hdq, initMsgs, List.replicate_succ', List.append_assoc]
  have ha : a = WorkerMessage.Shutdown := by
    have := (List.append_inj' hconcat (by simp)).2
    simpa using this
  rw [ha, List.countP_append] at hq0
  simp [isShutdown] at hq0

/-! ### Claim theorems for the runtime model -/

/-- Claim C8: the dispatch queue is FIFO — after any schedule, the messages
dequeued so far, in dequeue order, followed by the messages still queued are
exactly the sent sequence in send order (so dequeue order equals send
order). -/
theorem fifo_dequeue_order (jobs : List Nat) (K : Nat) (sched : List Nat) :
    (sysRun (initState jobs K) sched).dequeued
      ++ (sysRun (initState jobs K) sched).queue = initMsgs jobs K :=
  (sysRun_inv jobs K sched (initState jobs K) (init_inv jobs K)).2.1

/-- Claim C9: exactly-once dispatch — for any schedule of a pool with
`K ≥ 1` workers after which every worker has terminated (which is what the
teardown joins wait for), the queue has been fully drained and the jobs
executed across all workers are a permutation of the submitted jobs: each
submitted job was delivered to exactly one worker and executed exactly
once, before the joins returned. -/
theorem exactly_once_dispatch (jobs : List Nat) (K : Nat) (sched : List Nat)
    (hK : 1 ≤ K)
    (hterm : ∀ w ∈ (sysRun (initState jobs K) sched).workers, w.terminated = true) :
    (sysRun (initState jobs K) sched).queue = [] ∧
    (allExecuted (sysRun (initState jobs K) sched).workers).Perm jobs := by
  obtain ⟨hlen, hq, hperm, hcount⟩ :=
    sysRun_inv jobs K sched (initState jobs K) (init_inv jobs K)
  have hct : (sysRun (initState jobs K) sched).workers.countP (fun w => w.terminated)
      = K := by
    have h2 := List.countP_eq_length.mpr (fun w hw => hterm w hw)
    exact h2.trans hlen
  have hdcnt : (sysRun (initState jobs K) sched).dequeued.countP isShutdown = K := by
    rw [← hcount, hct]
  have hqnil := queue_nil_of_shutdown_count jobs K hK _ _ hq hdcnt
  refine ⟨hqnil, ?_⟩
  rw [hqnil, List.append_nil] at hq
  rw [hq, jobsOf_initMsgs] at hperm
  exact hperm

/-- Claim C9 witness: three jobs on a 2-worker pool with a concrete
interleaving that drains the queue and terminates both workers. -/
theorem exactly_once_dispatch_witness :
    1 ≤ 2 ∧
    (∀ w ∈ (sysRun (initState [10, 20, 30] 2) [0, 1, 0, 0, 1]).workers,
      w.terminated = true) ∧
    ((sysRun (initState [10, 20, 30] 2) [0, 1, 0, 0, 1]).queue = [] ∧
      (allExecuted (sysRun (initState [10, 20, 30] 2) [0, 1, 0, 0, 1]).workers).Perm
        [10, 20, 30]) :=
  ⟨by decide, by decide,
    exactly_once_dispatch [10, 20, 30] 2 [0, 1, 0, 0, 1] (by decide) (by decide)⟩
